import Mathlib

/-!
Shallow embedding of `leetcode.go` (package `goproject`): an array-backed
binary max-heap (`Push`, `Pop`, `Peek`, `IsEmpty`) and the sliding-window
maximum function `maxSlidingWindow` built on it.

The heap's backing array `h.c` is modelled as a `List Int`.  Go's
`a, b = b, a` swap of two array cells is `listSwap`.  The two unbounded
`for` loops (sift-up in `Push`, sift-down in `Pop`) are modelled with an
explicit fuel argument; the wrappers supply fuel that provably dominates
the loop's iteration count (sift-up strictly decreases the index, sift-down
strictly increases it below the fixed length), so the fuel never runs out
on the wrappers' calls.

Go's runtime bounds check is modelled explicitly: the one place where the
source can index out of range (`h.c[right]` in `Pop` when the node has only
a left child and is not smaller than it) returns `none` (= panic); all
other results are `some`.
-/

namespace Goproject

/-- Swap the cells `i` and `j` of the backing array, as Go's
`h.c[i], h.c[j] = h.c[j], h.c[i]`. -/
def listSwap (c : List Int) (i j : Nat) : List Int :=
  (c.set i (c.getD j 0)).set j (c.getD i 0)

/-- Index of the parent of heap node `j`, Go's `(idx-1)/2`. -/
def parent (j : Nat) : Nat := (j - 1) / 2

/-- Go's `IsEmpty`: reports whether the backing array has length zero. -/
def IsEmpty (c : List Int) : Bool := c.length == 0

/-- Go's `Peek`: returns `h.c[0]`, or `-1` when empty.
The second component is the receiver's backing array as the method leaves
it: the body contains no assignment, so it is the input array itself. -/
def Peek (c : List Int) : Int × List Int :=
  if IsEmpty c then (-1, c) else (c.getD 0 0, c)

/-- The sift-up loop of `Push`:
`for idx-1 >= 0 && h.c[(idx-1)/2] < h.c[idx] { swap; idx = (idx-1)/2 }`. -/
def siftUpAux : Nat → List Int → Nat → List Int
  | 0, c, _ => c
  | fuel + 1, c, idx =>
    if 1 ≤ idx ∧ c.getD (parent idx) 0 < c.getD idx 0 then
      siftUpAux fuel (listSwap c (parent idx) idx) (parent idx)
    else c

/-- Go's `Push`: append `x`, then sift it up.  The loop
index strictly decreases, so `c.length + 1` units of fuel always suffice. -/
def Push (c : List Int) (x : Int) : List Int :=
  siftUpAux (c.length + 1) (c ++ [x]) c.length

/-- The sift-down loop of `Pop`, branch for branch.  Go's `right >= len(h.c)`
is written `c.length ≤ right`, and `h.c[idx] >= h.c[left]` is written
`c.getD left 0 ≤ c.getD idx 0`.  The `none` branch is the state in which the
source evaluates `h.c[right]` with `right >= len(h.c)`: a Go index
out-of-range panic (reached when `left < len(h.c) <= right` and
`h.c[idx] >= h.c[left]`, because the guard of the second branch only
covers `h.c[idx] < h.c[left]`). -/
def siftDownAux : Nat → List Int → Nat → Option (List Int)
  | 0, c, _ => some c
  | fuel + 1, c, idx =>
    if idx < c.length then
      if c.length ≤ 2 * idx + 2 ∧ c.length ≤ 2 * idx + 1 then some c
      else if c.length ≤ 2 * idx + 2 ∧ c.getD idx 0 < c.getD (2 * idx + 1) 0 then
        siftDownAux fuel (listSwap c idx (2 * idx + 1)) (2 * idx + 1)
      else if c.length ≤ 2 * idx + 2 then none
      else if c.getD (2 * idx + 1) 0 ≤ c.getD idx 0 ∧ c.getD (2 * idx + 2) 0 ≤ c.getD idx 0 then
        some c
      else if c.getD (2 * idx + 1) 0 ≤ c.getD idx 0 then
        siftDownAux fuel (listSwap c idx (2 * idx + 2)) (2 * idx + 2)
      else if c.getD (2 * idx + 2) 0 ≤ c.getD idx 0 then
        siftDownAux fuel (listSwap c idx (2 * idx + 1)) (2 * idx + 1)
      else if c.getD (2 * idx + 1) 0 < c.getD (2 * idx + 2) 0 then
        siftDownAux fuel (listSwap c idx (2 * idx + 2)) (2 * idx + 2)
      else
        siftDownAux fuel (listSwap c idx (2 * idx + 1)) (2 * idx + 1)
    else some c

/-- Go's `Pop`: on a non-empty heap, save the root, move the
last element to the root, shrink, sift down.  `none` is a Go panic inside
the sift-down.  The loop index strictly increases below the fixed length,
so `d.length` units of fuel always suffice. -/
def Pop (c : List Int) : Option (Int × List Int) :=
  if IsEmpty c then some (-1, c)
  else
    (siftDownAux ((c.set 0 (c.getD (c.length - 1) 0)).dropLast).length
        ((c.set 0 (c.getD (c.length - 1) 0)).dropLast) 0).map
      (fun e => (c.getD 0 0, e))

/-- The second `for` loop of `maxSlidingWindow`, over window starts `i`.
Go's guard `i+k-1 < len(nums)` (over `int`) is exactly `i + k ≤ nums.length`
over `Nat`.  The loop body appends `h.Peek()` at `i = 0`; for later `i` it
pops when the outgoing element `nums[i-1]` equals the root, pushes
`nums[i+k-1]`, and appends the new root.  The loop runs at most
`nums.length + 1` iterations, so the wrapper's fuel never runs out. -/
def mswLoop (nums : List Int) (k : Nat) : Nat → List Int → List Int → Nat → Option (List Int)
  | 0, _, _, _ => none
  | fuel + 1, h, res, i =>
    if i + k ≤ nums.length then
      if i = 0 then
        mswLoop nums k fuel h (res ++ [(Peek h).1]) (i + 1)
      else
        match (if (Peek h).1 = nums.getD (i - 1) 0 then (Pop h).map Prod.snd else some h) with
        | none => none
        | some h1 =>
          mswLoop nums k fuel (Push h1 (nums.getD (i + k - 1) 0))
            (res ++ [(Peek (Push h1 (nums.getD (i + k - 1) 0))).1]) (i + 1)
    else some res

/-- Go's `maxSlidingWindow`.  The first loop pushes
`nums[0..k-1]` (when `k > len(nums)` the source indexes out of range: `none`).
The second component is the caller's `nums` array as the function leaves it:
no statement of the source assigns to `nums`, so it is the input itself. -/
def maxSlidingWindow (nums : List Int) (k : Nat) : Option (List Int) × List Int :=
  if nums.length < k then (none, nums)
  else (mswLoop nums k (nums.length + 2) ((nums.take k).foldl Push []) [] 0, nums)

/-- The max-heap property of the backing array: every non-root node is
at most its parent. -/
def IsHeap (c : List Int) : Prop :=
  ∀ j, j < c.length → 1 ≤ j → c.getD j 0 ≤ c.getD (parent j) 0

instance : DecidablePred IsHeap := fun c =>
  inferInstanceAs (Decidable (∀ j, j < c.length → 1 ≤ j → _ ≤ _))

/-- The heap states reachable from the empty heap by the two mutating
operations, a `Pop` step existing only when the source returns (does not
panic). -/
inductive Reachable : List Int → Prop
  | empty : Reachable []
  | push {c : List Int} (x : Int) : Reachable c → Reachable (Push c x)
  | pop {c c' : List Int} {r : Int} : Reachable c → Pop c = some (r, c') → Reachable c'

/-- Invariant of the sift-up loop: the heap property holds at every non-root
node other than `idx`, and the children of `idx` (if any) are bounded by the
parent of `idx`. -/
def UpInv (c : List Int) (idx : Nat) : Prop :=
  (∀ j, j < c.length → 1 ≤ j → j ≠ idx → c.getD j 0 ≤ c.getD (parent j) 0) ∧
  (1 ≤ idx → ∀ j, j < c.length → parent j = idx → c.getD j 0 ≤ c.getD (parent idx) 0)

/-- Invariant of the sift-down loop: the heap property holds at every node
whose parent is not `idx`, and the children of `idx` (if any) are bounded by
the parent of `idx`. -/
def DownInv (c : List Int) (idx : Nat) : Prop :=
  (∀ j, j < c.length → 1 ≤ j → parent j ≠ idx → c.getD j 0 ≤ c.getD (parent j) 0) ∧
  (1 ≤ idx → ∀ j, j < c.length → parent j = idx → c.getD j 0 ≤ c.getD (parent idx) 0)

/-- The maximum of a list (its `getD 0 0` head used as the fold seed, so the
value is a genuine member for non-empty lists). -/
def listMax (l : List Int) : Int := l.foldl max (l.getD 0 0)

/-- Modelled from the spec: "the `i`-th output is the maximum of input
elements `[i, i+k-1]`" — the spec-side brute-force window maximum, used to
compare the code's output against on the refinement claims. -/
def windowMax (nums : List Int) (k i : Nat) : Int := listMax ((nums.drop i).take k)

/-! ### Basic facts about `listSwap` and `getD` -/

lemma length_listSwap (c : List Int) (i j : Nat) : (listSwap c i j).length = c.length := by
  simp [listSwap]

lemma getD_listSwap (c : List Int) (i j n : Nat) (hi : i < c.length) (hj : j < c.length) :
    (listSwap c i j).getD n 0 =
      if n = j then c.getD i 0 else if n = i then c.getD j 0 else c.getD n 0 := by
  simp only [listSwap, List.getD_eq_getElem?_getD, List.getElem?_set, List.length_set]
  rcases eq_or_ne n j with rfl | h1
  · simp [hi, hj]
  · rcases eq_or_ne n i with rfl | h2
    · simp [h1, Ne.symm h1, hi, hj]
    · simp [h1, h2, Ne.symm h1, Ne.symm h2]

lemma mem_iff_getD {a : Int} {l : List Int} :
    a ∈ l ↔ ∃ n, n < l.length ∧ l.getD n 0 = a := by
  rw [List.mem_iff_getElem]
  constructor
  · rintro ⟨n, h, rfl⟩
    exact ⟨n, h, by simp [List.getD_eq_getElem?_getD, List.getElem?_eq_getElem h]⟩
  · rintro ⟨n, h, hEq⟩
    exact ⟨n, h, by simpa [List.getD_eq_getElem?_getD, List.getElem?_eq_getElem h] using hEq⟩

lemma mem_listSwap {a : Int} (c : List Int) (i j : Nat) (hi : i < c.length)
    (hj : j < c.length) : a ∈ listSwap c i j ↔ a ∈ c := by
  constructor
  · intro h
    rcases mem_iff_getD.1 h with ⟨n, hn, hEq⟩
    rw [length_listSwap] at hn
    rw [getD_listSwap c i j n hi hj] at hEq
    split_ifs at hEq
    · exact mem_iff_getD.2 ⟨i, hi, hEq⟩
    · exact mem_iff_getD.2 ⟨j, hj, hEq⟩
    · exact mem_iff_getD.2 ⟨n, hn, hEq⟩
  · intro h
    rcases mem_iff_getD.1 h with ⟨n, hn, hEq⟩
    by_cases hni : n = i
    · refine mem_iff_getD.2 ⟨j, by rw [length_listSwap]; exact hj, ?_⟩
      rw [getD_listSwap c i j j hi hj, if_pos rfl, ← hni]
      exact hEq
    · by_cases hnj : n = j
      · refine mem_iff_getD.2 ⟨i, by rw [length_listSwap]; exact hi, ?_⟩
        rw [getD_listSwap c i j i hi hj]
        have hij : i ≠ j := fun hc => hni (hnj.trans hc.symm)
        rw [if_neg hij, if_pos rfl, ← hnj]
        exact hEq
      · refine mem_iff_getD.2 ⟨n, by rw [length_listSwap]; exact hn, ?_⟩
        rw [getD_listSwap c i j n hi hj, if_neg hnj, if_neg hni]
        exact hEq

/-! ### Length and membership through the sift-up loop and `Push` -/

lemma parent_lt {j : Nat} (h : 1 ≤ j) : parent j < j := by
  simp only [parent]; omega

lemma length_siftUpAux (fuel : Nat) : ∀ (c : List Int) (idx : Nat),
    (siftUpAux fuel c idx).length = c.length := by
  induction fuel with
  | zero => intro c idx; rfl
  | succ fuel ih =>
    intro c idx
    rw [siftUpAux]
    split
    · rw [ih, length_listSwap]
    · rfl

lemma mem_siftUpAux {a : Int} (fuel : Nat) : ∀ (c : List Int) (idx : Nat),
    idx < c.length → (a ∈ siftUpAux fuel c idx ↔ a ∈ c) := by
  induction fuel with
  | zero => intro c idx _; rfl
  | succ fuel ih =>
    intro c idx hidx
    rw [siftUpAux]
    split
    · next hcond =>
      have hp : parent idx < c.length := lt_trans (parent_lt hcond.1) hidx
      rw [ih _ _ (by rw [length_listSwap]; exact hp)]
      exact mem_listSwap c (parent idx) idx hp hidx
    · rfl

lemma length_Push (c : List Int) (x : Int) : (Push c x).length = c.length + 1 := by
  rw [Push, length_siftUpAux]; simp

lemma mem_Push {a : Int} (c : List Int) (x : Int) : a ∈ Push c x ↔ a ∈ c ∨ a = x := by
  rw [Push, mem_siftUpAux _ _ _ (by simp)]
  simp

/-! ### The sift-up loop establishes the heap property -/

lemma getD_append_lt (c : List Int) (x : Int) {j : Nat} (hj : j < c.length) :
    (c ++ [x]).getD j 0 = c.getD j 0 := by
  simp [List.getD_eq_getElem?_getD, List.getElem?_append, hj]

lemma upInv_init {c : List Int} (x : Int) (hc : IsHeap c) : UpInv (c ++ [x]) c.length := by
  constructor
  · intro j hj hj1 hne
    have hjlen : j < c.length := by
      simp only [List.length_append, List.length_singleton] at hj
      omega
    have hplen : parent j < c.length := lt_trans (parent_lt hj1) hjlen
    rw [getD_append_lt c x hjlen, getD_append_lt c x hplen]
    exact hc j hjlen hj1
  · intro hidx j hj hpj
    exfalso
    simp only [List.length_append, List.length_singleton] at hj
    simp only [parent] at hpj
    omega

lemma upInv_step {c : List Int} {idx : Nat} (hidx : idx < c.length) (h1 : 1 ≤ idx)
    (hlt : c.getD (parent idx) 0 < c.getD idx 0) (hinv : UpInv c idx) :
    UpInv (listSwap c (parent idx) idx) (parent idx) := by
  obtain ⟨ha, hb⟩ := hinv
  have hp : parent idx < idx := parent_lt h1
  have hplen : parent idx < c.length := lt_trans hp hidx
  have hG : ∀ n, (listSwap c (parent idx) idx).getD n 0 =
      if n = idx then c.getD (parent idx) 0
      else if n = parent idx then c.getD idx 0
      else c.getD n 0 := fun n => getD_listSwap c (parent idx) idx n hplen hidx
  constructor
  · intro j hj hj1 hjne
    rw [length_listSwap] at hj
    rw [hG j, hG (parent j)]
    by_cases hji : j = idx
    · subst hji
      rw [if_pos rfl, if_neg (Nat.ne_of_lt hp), if_pos rfl]
      exact le_of_lt hlt
    · rw [if_neg hji]
      by_cases hjp : parent j = idx
      · rw [if_neg hjne, if_pos hjp]
        exact hb h1 j hj hjp
      · rw [if_neg hjne, if_neg hjp]
        by_cases hjpp : parent j = parent idx
        · rw [if_pos hjpp]
          have hle := ha j hj hj1 hji
          rw [hjpp] at hle
          exact le_trans hle (le_of_lt hlt)
        · rw [if_neg hjpp]
          exact ha j hj hj1 hji
  · intro hp1 j hj hjparent
    rw [length_listSwap] at hj
    rw [hG j, hG (parent (parent idx))]
    have hgp : parent (parent idx) < parent idx := parent_lt hp1
    have hgp_ne1 : parent (parent idx) ≠ idx := Nat.ne_of_lt (lt_trans hgp hp)
    have hgp_ne2 : parent (parent idx) ≠ parent idx := Nat.ne_of_lt hgp
    rw [if_neg hgp_ne1, if_neg hgp_ne2]
    have hwg : c.getD (parent idx) 0 ≤ c.getD (parent (parent idx)) 0 :=
      ha (parent idx) hplen hp1 (Nat.ne_of_lt hp)
    by_cases hji : j = idx
    · rw [if_pos hji]
      exact hwg
    · rw [if_neg hji]
      have hj_ne_p : j ≠ parent idx := by
        intro hc
        rw [hc] at hjparent
        exact absurd hjparent (Nat.ne_of_lt hgp)
      rw [if_neg hj_ne_p]
      have hj1 : 1 ≤ j := by
        by_contra h0
        have hj0 : j = 0 := by omega
        rw [hj0] at hjparent
        simp only [parent] at hjparent hp1
        omega
      have hle := ha j hj hj1 hji
      rw [hjparent] at hle
      exact le_trans hle hwg

lemma siftUpAux_isHeap (fuel : Nat) : ∀ (c : List Int) (idx : Nat),
    UpInv c idx → idx < c.length → idx + 1 ≤ fuel → IsHeap (siftUpAux fuel c idx) := by
  induction fuel with
  | zero => intro c idx _ _ h; omega
  | succ fuel ih =>
    intro c idx hinv hidx hfuel
    rw [siftUpAux]
    split
    · next hcond =>
      apply ih
      · exact upInv_step hidx hcond.1 hcond.2 hinv
      · rw [length_listSwap]
        exact lt_trans (parent_lt hcond.1) hidx
      · have := parent_lt hcond.1
        omega
    · next hcond =>
      intro j hj hj1
      by_cases hji : j = idx
      · subst hji
        exact le_of_not_lt fun h => hcond ⟨hj1, h⟩
      · exact hinv.1 j hj hj1 hji

lemma push_isHeap {c : List Int} (x : Int) (hc : IsHeap c) : IsHeap (Push c x) := by
  apply siftUpAux_isHeap
  · exact upInv_init x hc
  · simp
  · simp

/-! ### The sift-down loop preserves the heap property (when it returns) -/

lemma children_of_parent {j i : Nat} (hj1 : 1 ≤ j) (h : parent j = i) :
    j = 2 * i + 1 ∨ j = 2 * i + 2 := by
  simp only [parent] at h
  omega

lemma downInv_isHeap {c : List Int} {idx : Nat} (hinv : DownInv c idx)
    (hstop : ∀ j, j < c.length → 1 ≤ j → parent j = idx → c.getD j 0 ≤ c.getD idx 0) :
    IsHeap c := by
  intro j hj hj1
  by_cases hpj : parent j = idx
  · rw [hpj]
    exact hstop j hj hj1 hpj
  · exact hinv.1 j hj hj1 hpj

lemma downInv_step {c : List Int} {idx m : Nat} (hidx : idx < c.length) (hm : m < c.length)
    (hchild : m = 2 * idx + 1 ∨ m = 2 * idx + 2)
    (hlt : c.getD idx 0 < c.getD m 0)
    (hmax : ∀ o, o < c.length → (o = 2 * idx + 1 ∨ o = 2 * idx + 2) →
      c.getD o 0 ≤ c.getD m 0)
    (hinv : DownInv c idx) :
    DownInv (listSwap c idx m) m := by
  obtain ⟨ha, hb⟩ := hinv
  have him : idx < m := by omega
  have hpm : parent m = idx := by
    rcases hchild with rfl | rfl <;> (simp only [parent]; omega)
  have hG : ∀ n, (listSwap c idx m).getD n 0 =
      if n = m then c.getD idx 0
      else if n = idx then c.getD m 0
      else c.getD n 0 := fun n => getD_listSwap c idx m n hidx hm
  constructor
  · intro j hj hj1 hpj_ne
    rw [length_listSwap] at hj
    rw [hG j, hG (parent j)]
    by_cases hjm : j = m
    · subst hjm
      rw [if_pos rfl, hpm, if_neg (Nat.ne_of_lt him), if_pos rfl]
      exact le_of_lt hlt
    · rw [if_neg hjm]
      by_cases hpj_idx : parent j = idx
      · have hj_ne_idx : j ≠ idx := by
          intro hc
        -- j = idx would force idx to be its own parent, impossible for j ≥ 1
          rw [hc] at hpj_idx
          rcases Nat.eq_zero_or_pos idx with h0 | h0
          · rw [hc, h0] at hj1
            omega
          · exact absurd hpj_idx (Nat.ne_of_lt (parent_lt h0))
        rw [if_neg hj_ne_idx, if_neg (hpj_idx.symm ▸ Nat.ne_of_lt him : parent j ≠ m),
          if_pos hpj_idx]
        exact hmax j hj (children_of_parent hj1 hpj_idx)
      · rw [if_neg hpj_ne, if_neg hpj_idx]
        by_cases hj_idx : j = idx
        · rw [if_pos hj_idx]
          have h1i : 1 ≤ idx := hj_idx ▸ hj1
          have := hb h1i m hm hpm
          rw [hj_idx]
          exact this
        · rw [if_neg hj_idx]
          exact ha j hj hj1 hpj_idx
  · intro h1m j hj hpjm
    rw [length_listSwap] at hj
    have hj1 : 1 ≤ j := by
      rcases Nat.eq_zero_or_pos j with h0 | h0
      · rw [h0] at hpjm
        simp only [parent] at hpjm
        omega
      · exact h0
    have hjm2 : 2 * m + 1 ≤ j := by
      rcases children_of_parent hj1 hpjm with rfl | rfl <;> omega
    rw [hG j, hG (parent m), hpm, if_neg (Nat.ne_of_lt him), if_pos rfl,
      if_neg (by omega : j ≠ m), if_neg (by omega : j ≠ idx)]
    have := ha j hj hj1 (by rw [hpjm]; exact Nat.ne_of_gt him)
    rw [hpjm] at this
    exact this

lemma siftDownAux_isHeap (fuel : Nat) : ∀ (c : List Int) (idx : Nat) (e : List Int),
    DownInv c idx → c.length ≤ fuel + idx → siftDownAux fuel c idx = some e → IsHeap e := by
  induction fuel with
  | zero =>
    intro c idx e hinv hfuel heq
    injection heq with heq
    subst heq
    refine downInv_isHeap hinv fun j hj hj1 hpj => absurd hj (by
      have := children_of_parent hj1 hpj
      omega)
  | succ fuel ih =>
    intro c idx e hinv hfuel heq
    rw [siftDownAux] at heq
    by_cases hidx : idx < c.length
    · rw [if_pos hidx] at heq
      split_ifs at heq with h1 h2 h3 h4 h5 h6 h7
      · -- both children out of range: the loop returns, and the heap is restored
        injection heq with heq
        subst heq
        refine downInv_isHeap hinv fun j hj hj1 hpj => absurd hj (by
          have := children_of_parent hj1 hpj
          omega)
      · -- only a left child, strictly larger: swap left
        have hml : 2 * idx + 1 < c.length := by
          rcases h2 with ⟨hr, _⟩
          omega
        refine ih _ _ _ (downInv_step hidx hml (Or.inl rfl) h2.2 ?_ hinv) ?_ heq
        · intro o ho hor
          rcases hor with rfl | rfl
          · exact le_refl _
          · omega
        · rw [length_listSwap]
          omega
      · -- node not smaller than either child: the loop returns, heap restored
        -- (the `none` panic branch can never equal `some e`, so `split_ifs`
        -- discharges it on its own and it needs no case here)
        injection heq with heq
        subst heq
        refine downInv_isHeap hinv fun j hj hj1 hpj => ?_
        rcases children_of_parent hj1 hpj with rfl | rfl
        · exact h4.1
        · exact h4.2
      · -- left ≤ node < right: swap right
        have hmr : 2 * idx + 2 < c.length := by omega
        have hltr : c.getD idx 0 < c.getD (2 * idx + 2) 0 := by
          rcases not_and_or.1 h4 with hc | hc
          · exact absurd h5 hc
          · exact lt_of_not_le hc
        refine ih _ _ _ (downInv_step hidx hmr (Or.inr rfl) hltr ?_ hinv) ?_ heq
        · intro o ho hor
          rcases hor with rfl | rfl
          · exact h5.trans (le_of_lt hltr)
          · exact le_refl _
        · rw [length_listSwap]
          omega
      · -- right ≤ node < left: swap left
        have hml : 2 * idx + 1 < c.length := by omega
        have hltl : c.getD idx 0 < c.getD (2 * idx + 1) 0 := lt_of_not_le h5
        refine ih _ _ _ (downInv_step hidx hml (Or.inl rfl) hltl ?_ hinv) ?_ heq
        · intro o ho hor
          rcases hor with rfl | rfl
          · exact le_refl _
          · exact h6.trans (le_of_lt hltl)
        · rw [length_listSwap]
          omega
      · -- both children larger, left < right: swap right
        have hmr : 2 * idx + 2 < c.length := by omega
        have hltr : c.getD idx 0 < c.getD (2 * idx + 2) 0 := lt_of_not_le h6
        refine ih _ _ _ (downInv_step hidx hmr (Or.inr rfl) hltr ?_ hinv) ?_ heq
        · intro o ho hor
          rcases hor with rfl | rfl
          · exact le_of_lt h7
          · exact le_refl _
        · rw [length_listSwap]
          omega
      · -- both children larger, right ≤ left: swap left (the tie-break branch)
        have hml : 2 * idx + 1 < c.length := by omega
        have hltl : c.getD idx 0 < c.getD (2 * idx + 1) 0 := lt_of_not_le h5
        refine ih _ _ _ (downInv_step hidx hml (Or.inl rfl) hltl ?_ hinv) ?_ heq
        · intro o ho hor
          rcases hor with rfl | rfl
          · exact le_refl _
          · exact le_of_not_lt h7
        · rw [length_listSwap]
          omega
    · rw [if_neg hidx] at heq
      injection heq with heq
      subst heq
      refine downInv_isHeap hinv fun j hj hj1 hpj => absurd hj (by
        have := children_of_parent hj1 hpj
        omega)

lemma getD_popArray {c : List Int} {n : Nat} (h1 : 1 ≤ n) (hn : n < c.length - 1) :
    ((c.set 0 (c.getD (c.length - 1) 0)).dropLast).getD n 0 = c.getD n 0 := by
  rw [List.dropLast_eq_take]
  simp only [List.getD_eq_getElem?_getD, List.length_set, List.getElem?_take]
  rw [if_pos hn, List.getElem?_set_ne (by omega)]

lemma pop_isHeap {c : List Int} {r : Int} {e : List Int} (hc : IsHeap c)
    (heq : Pop c = some (r, e)) : IsHeap e := by
  rw [Pop] at heq
  by_cases hemp : IsEmpty c
  · rw [if_pos hemp] at heq
    injection heq with heq
    have hce : c = e := congrArg Prod.snd heq
    rw [← hce]
    exact hc
  · rw [if_neg hemp] at heq
    rcases Option.map_eq_some'.1 heq with ⟨e', he', hfe⟩
    have hee : e' = e := congrArg Prod.snd hfe
    subst hee
    refine siftDownAux_isHeap _ _ 0 _ ⟨?_, ?_⟩ (by simp) he'
    · intro j hj hj1 hpj
      have hjlen : j < c.length - 1 := by
        simpa using hj
      have hp1 : 1 ≤ parent j := by
        rcases Nat.eq_zero_or_pos (parent j) with h0 | h0
        · exact absurd h0 hpj
        · exact h0
      have hplt : parent j < c.length - 1 := lt_trans (parent_lt hj1) hjlen
      rw [getD_popArray hj1 hjlen, getD_popArray hp1 hplt]
      exact hc j (by omega) hj1
    · intro h0
      exact absurd h0 (by omega)

lemma isHeap_le_root {c : List Int} (hc : IsHeap c) :
    ∀ j, j < c.length → c.getD j 0 ≤ c.getD 0 0 := by
  intro j
  induction j using Nat.strong_induction_on with
  | _ j ih =>
    intro hj
    rcases Nat.eq_zero_or_pos j with rfl | hj1
    · exact le_refl _
    · exact le_trans (hc j hj hj1)
        (ih (parent j) (parent_lt hj1) (lt_trans (parent_lt hj1) hj))

lemma reachable_isHeap {c : List Int} (h : Reachable c) : IsHeap c := by
  induction h with
  | empty =>
    intro j hj _
    simp at hj
  | push x _ ih => exact push_isHeap x ih
  | pop _ heq ih => exact pop_isHeap ih heq

lemma peek_fst {c : List Int} (h : c ≠ []) : (Peek c).1 = c.getD 0 0 := by
  simp [Peek, IsEmpty, List.length_eq_zero, h]

/-! ### Maxima of lists, and the contents of a heap built by pushes -/

lemma le_foldl_max (l : List Int) : ∀ a : Int, a ≤ l.foldl max a := by
  induction l with
  | nil => intro a; exact le_refl a
  | cons b t ih => intro a; exact le_trans (le_max_left a b) (ih (max a b))

lemma mem_le_foldl_max (l : List Int) : ∀ (a x : Int), x ∈ l → x ≤ l.foldl max a := by
  induction l with
  | nil =>
    intro a x hx
    simp at hx
  | cons b t ih =>
    intro a x hx
    rcases List.mem_cons.1 hx with rfl | hx
    · exact le_trans (le_max_right a x) (le_foldl_max t (max a x))
    · exact ih (max a b) x hx

lemma foldl_max_mem (l : List Int) : ∀ a : Int, l.foldl max a = a ∨ l.foldl max a ∈ l := by
  induction l with
  | nil => intro a; exact Or.inl rfl
  | cons b t ih =>
    intro a
    rw [List.foldl_cons]
    rcases ih (max a b) with h | h
    · rcases max_choice a b with hm | hm
      · exact Or.inl (by rw [h, hm])
      · exact Or.inr (by rw [h, hm]; exact List.mem_cons_self b t)
    · exact Or.inr (List.mem_cons_of_mem b h)

lemma le_listMax {l : List Int} {x : Int} (hx : x ∈ l) : x ≤ listMax l :=
  mem_le_foldl_max l _ x hx

lemma listMax_mem {l : List Int} (h : l ≠ []) : listMax l ∈ l := by
  rcases foldl_max_mem l (l.getD 0 0) with heq | hmem
  · rw [listMax, heq]
    cases l with
    | nil => exact absurd rfl h
    | cons b t => simp
  · exact hmem

lemma isHeap_nil : IsHeap [] := by
  intro j hj _
  simp at hj

lemma foldl_Push_isHeap (l : List Int) : ∀ c : List Int,
    IsHeap c → IsHeap (l.foldl Push c) := by
  induction l with
  | nil => intro c hc; exact hc
  | cons x t ih => intro c hc; exact ih (Push c x) (push_isHeap x hc)

lemma mem_foldl_Push (l : List Int) : ∀ (c : List Int) (a : Int),
    a ∈ l.foldl Push c ↔ a ∈ c ∨ a ∈ l := by
  induction l with
  | nil => intro c a; simp
  | cons x t ih =>
    intro c a
    rw [List.foldl_cons, ih (Push c x) a, mem_Push]
    simp [List.mem_cons]
    tauto

lemma length_foldl_Push (l : List Int) : ∀ c : List Int,
    (l.foldl Push c).length = c.length + l.length := by
  induction l with
  | nil => intro c; simp
  | cons x t ih =>
    intro c
    rw [List.foldl_cons, ih (Push c x), length_Push, List.length_cons]
    omega

/-! ### The windowing loop -/

lemma mswLoop_extends {nums : List Int} {k : Nat} : ∀ (fuel : Nat) (h res : List Int)
    (i : Nat) (out : List Int), mswLoop nums k fuel h res i = some out →
    ∃ t, out = res ++ t := by
  intro fuel
  induction fuel with
  | zero =>
    intro h res i out heq
    exact absurd heq (by simp [mswLoop])
  | succ fuel ih =>
    intro h res i out heq
    rw [mswLoop] at heq
    by_cases hcond : i + k ≤ nums.length
    · rw [if_pos hcond] at heq
      by_cases hi : i = 0
      · rw [if_pos hi] at heq
        rcases ih _ _ _ _ heq with ⟨t, ht⟩
        exact ⟨[(Peek h).1] ++ t, by rw [ht, List.append_assoc]⟩
      · rw [if_neg hi] at heq
        rcases hmatch : (if (Peek h).1 = nums.getD (i - 1) 0 then (Pop h).map Prod.snd
            else some h) with _ | h1
        · rw [hmatch] at heq
          simp at heq
        · rw [hmatch] at heq
          rcases ih _ _ _ _ heq with ⟨t, ht⟩
          exact ⟨[(Peek (Push h1 (nums.getD (i + k - 1) 0))).1] ++ t,
            by rw [ht, List.append_assoc]⟩
    · rw [if_neg hcond] at heq
      injection heq with heq
      exact ⟨[], by rw [← heq, List.append_nil]⟩

lemma maxSlidingWindow_fst {nums : List Int} {k : Nat} (h : ¬nums.length < k) :
    (maxSlidingWindow nums k).1 =
      mswLoop nums k (nums.length + 2) ((nums.take k).foldl Push []) [] 0 := by
  rw [maxSlidingWindow, if_neg h]

/-- The first entry of a normally-returned result is the root the heap holds
after the `k` seeding pushes, and that root is the true maximum of the first
window. -/
lemma msw_first (nums : List Int) (k : Nat) (out : List Int) (hk1 : 1 ≤ k)
    (hkn : k ≤ nums.length) (hout : (maxSlidingWindow nums k).1 = some out) :
    out.getD 0 0 = windowMax nums k 0 := by
  rw [maxSlidingWindow_fst (by omega)] at hout
  rw [show nums.length + 2 = (nums.length + 1) + 1 from rfl, mswLoop,
    if_pos (by omega : 0 + k ≤ nums.length), if_pos rfl] at hout
  rcases mswLoop_extends _ _ _ _ _ hout with ⟨t, ht⟩
  have hout0 : out.getD 0 0 = (Peek ((nums.take k).foldl Push [])).1 := by
    rw [ht]
    simp
  have hheap : IsHeap ((nums.take k).foldl Push []) :=
    foldl_Push_isHeap _ [] isHeap_nil
  have hlen : ((nums.take k).foldl Push []).length = k := by
    rw [length_foldl_Push]
    simp [List.length_take, Nat.min_eq_left hkn]
  have hne : ((nums.take k).foldl Push []) ≠ [] := by
    intro hnil
    rw [hnil] at hlen
    simp at hlen
    omega
  have htne : nums.take k ≠ [] := by
    intro hnil
    have := congrArg List.length hnil
    simp [List.length_take, Nat.min_eq_left hkn] at this
    omega
  have hmem : ∀ a : Int, a ∈ (nums.take k).foldl Push [] ↔ a ∈ nums.take k := by
    intro a
    rw [mem_foldl_Push]
    simp
  rw [hout0, peek_fst hne, windowMax, List.drop_zero]
  apply le_antisymm
  · exact le_listMax ((hmem _).1 (mem_iff_getD.2 ⟨0, by omega, rfl⟩))
  · rcases mem_iff_getD.1 ((hmem _).2 (listMax_mem htne)) with ⟨n, hn, hgd⟩
    rw [← hgd]
    exact isHeap_le_root hheap n hn

/-! ### Claim theorems -/

/-- C1 (counterexample): on the demonstration input `[9,10,9,-7,-4,8,2,-6]`
with `k = 5`, `maxSlidingWindow` does not return `[10,10,9,8,8]` (that list
has five entries, but an 8-element input admits only 8−5+1 = 4 windows). -/
theorem msw_demo_not_as_spec :
    (maxSlidingWindow [9, 10, 9, -7, -4, 8, 2, -6] 5).1 ≠ some [10, 10, 9, 8, 8] := by
  decide

/-- C1 (amended): on the demonstration input `[9,10,9,-7,-4,8,2,-6]` with
`k = 5`, `maxSlidingWindow` returns exactly `[10,10,9,9]` — four entries,
the last one the stale `9` retained by root-only lazy deletion. -/
theorem msw_demo_returns :
    (maxSlidingWindow [9, 10, 9, -7, -4, 8, 2, -6] 5).1 = some [10, 10, 9, 9] := by
  decide

/-- C2 (counterexample): for the input `[3,5,1,1]` with `k = 2`, the call
returns `[5,5,3]`, whose window-2 entry `3` differs from the true maximum `1`
of `input[2..3]`: the `3` that left the window at `i = 1` was never removed
because `5` sat at the root. -/
theorem msw_stale_window :
    (maxSlidingWindow [3, 5, 1, 1] 2).1 = some [5, 5, 3] ∧
    List.getD [5, 5, 3] 2 0 ≠ windowMax [3, 5, 1, 1] 2 2 := by
  decide

/-- C2 (amended): whenever `maxSlidingWindow` returns normally on a sequence
of length `n` with `1 ≤ k ≤ n`, the 0-th output equals the true maximum of
`input[0..k-1]`; for later windows the root-only lazy deletion can leave the
output above the true window maximum. -/
theorem msw_first_window_max (nums : List Int) (k : Nat) (out : List Int)
    (hk1 : 1 ≤ k) (hkn : k ≤ nums.length)
    (hout : (maxSlidingWindow nums k).1 = some out) :
    out.getD 0 0 = windowMax nums k 0 :=
  msw_first nums k out hk1 hkn hout

theorem msw_first_window_max_witness :
    List.getD [3] 0 0 = windowMax [3, 1] 2 0 :=
  msw_first_window_max [3, 1] 2 [3] (by decide) (by decide) (by decide)

/-- C3 (code evaluated at the failing input): `[3,1,2]` is a well-formed
max-heap, reachable by pushing 3, 1, 2 from the empty heap, yet `Pop` on it
hits the unguarded `h.c[right]` read (`right = 2`, `len(h.c) = 2`) in the
sift-down loop — a Go index out-of-range panic, modelled as `none` — instead
of returning the root `3`. -/
theorem pop_reads_out_of_range :
    IsHeap [3, 1, 2] ∧ Reachable [3, 1, 2] ∧ Pop [3, 1, 2] = none := by
  refine ⟨by decide, ?_, by decide⟩
  exact Reachable.push 2 (Reachable.push 1 (Reachable.push 3 Reachable.empty))

/-- C4 (code evaluated at the failing input): `[5,3,4,0]` with `k = 3`
satisfies `1 ≤ k ≤ n`, yet `maxSlidingWindow` panics (the sift-down of the
`Pop` at window 1 reads `h.c[2]` with `len(h.c) = 2`) and returns no
sequence at all, let alone one of length `n − k + 1 = 2`. -/
theorem msw_valid_input_panics :
    1 ≤ 3 ∧ 3 ≤ ([5, 3, 4, 0] : List Int).length ∧
    (maxSlidingWindow [5, 3, 4, 0] 3).1 = none := by
  decide

/-- C5: after any finite interleaving of `Push` and (returning) `Pop` calls
starting from the empty heap, `Peek` on a non-empty heap is at least every
element stored in the backing array. -/
theorem peek_ge_all_reachable (c : List Int) (y : Int) (hr : Reachable c)
    (hne : c ≠ []) (hy : y ∈ c) : y ≤ (Peek c).1 := by
  rw [peek_fst hne]
  rcases mem_iff_getD.1 hy with ⟨n, hn, hgd⟩
  rw [← hgd]
  exact isHeap_le_root (reachable_isHeap hr) n hn

theorem peek_ge_all_reachable_witness : (1 : Int) ≤ (Peek (Push (Push [] 1) 2)).1 :=
  peek_ge_all_reachable (Push (Push [] 1) 2) 1
    (Reachable.push 2 (Reachable.push 1 Reachable.empty)) (by decide) (by decide)

/-- C6 (code evaluated at the failing input): on the all-equal input
`[1,1,1,1]` with `k = 3`, `maxSlidingWindow` panics (popping the root `1`
from the heap `[1,1,1]` leaves `[1,1]`, whose root has only a left child
equal to it, reaching the unguarded `h.c[right]` read) instead of returning
the constant sequence `[1,1]`. -/
theorem msw_const_input_panics :
    (∀ x ∈ ([1, 1, 1, 1] : List Int), x = 1) ∧
    (maxSlidingWindow [1, 1, 1, 1] 3).1 = none := by
  decide

/-- C7: `Pop` on the empty heap returns the sentinel `-1` and leaves the
backing array unchanged. -/
theorem pop_empty_sentinel : Pop [] = some (-1, []) := by
  decide

/-- C8: `Peek` leaves the backing array exactly as it was, two consecutive
`Peek` calls with no intervening mutation return the same value, and on the
empty heap `Peek` returns the sentinel `-1`. -/
theorem peek_idempotent_no_mutation :
    ∀ c : List Int, (Peek c).2 = c ∧ (Peek ((Peek c).2)).1 = (Peek c).1 ∧
      (Peek ([] : List Int)).1 = -1 := by
  intro c
  have h2 : (Peek c).2 = c := by
    rw [Peek]
    split <;> rfl
  exact ⟨h2, by rw [h2], by decide⟩

/-- C9: `maxSlidingWindow` never modifies its input sequence: the `nums`
array it leaves behind is the one it was given (no statement of the source
assigns to `nums`). -/
theorem msw_preserves_input :
    ∀ (nums : List Int) (k : Nat), (maxSlidingWindow nums k).2 = nums := by
  intro nums k
  rw [maxSlidingWindow]
  split <;> rfl

/-- C10: in the sift-down of `Pop`, when both children are in range, both are
strictly greater than the node, and the two children are equal, the node is
swapped with the left child `2*idx+1` (the final `else` of the Go branch
chain), never the right one. -/
theorem siftDown_equal_children_swap_left (c : List Int) (idx fuel : Nat)
    (h1 : idx < c.length) (h2 : 2 * idx + 2 < c.length)
    (h3 : c.getD idx 0 < c.getD (2 * idx + 1) 0)
    (h4 : c.getD idx 0 < c.getD (2 * idx + 2) 0)
    (h5 : c.getD (2 * idx + 1) 0 = c.getD (2 * idx + 2) 0) :
    siftDownAux (fuel + 1) c idx =
      siftDownAux fuel (listSwap c idx (2 * idx + 1)) (2 * idx + 1) := by
  rw [siftDownAux, if_pos h1, if_neg (fun hc => absurd hc.1 (by omega)),
    if_neg (fun hc => absurd hc.1 (by omega)), if_neg (by omega),
    if_neg (fun hc => absurd hc.1 (not_le.2 h3)), if_neg (not_le.2 h3),
    if_neg (not_le.2 h4), if_neg (not_lt.2 (le_of_eq h5.symm))]

theorem siftDown_equal_children_swap_left_witness :
    siftDownAux 2 [1, 5, 5] 0 = siftDownAux 1 (listSwap [1, 5, 5] 0 1) 1 :=
  siftDown_equal_children_swap_left [1, 5, 5] 0 1 (by decide) (by decide)
    (by decide) (by decide) (by decide)

-- sanity checks against hand-traces of the Go source
example : Push (Push (Push [] 3) 1) 2 = [3, 1, 2] := by decide
example : Push (Push [] 9) 10 = [10, 9] := by decide
example : Pop [3, 1, 2] = none := by decide
example : Pop [5, 3, 1] = some (5, [3, 1]) := by decide
example : (maxSlidingWindow [9, 10, 9, -7, -4, 8, 2, -6] 5).1 = some [10, 10, 9, 9] := by decide
example : (maxSlidingWindow [3, 5, 1, 1] 2).1 = some [5, 5, 3] := by decide
example : (maxSlidingWindow [5, 3, 4, 0] 3).1 = none := by decide
example : (maxSlidingWindow [1, 1, 1, 1] 3).1 = none := by decide
example : (maxSlidingWindow [1, 1, 1] 2).1 = some [1, 1] := by decide

end Goproject
